import Mathlib

/-!
Verification development for the decent-workshop repository: a node registry
(src/src/registry/registry.ts) and a crypto module (base64 codec, RSA-OAEP
transport, AES-CBC transport, key export/import; src/unnamed/part_000).

Modelling conventions:
* Byte buffers (ArrayBuffer / Buffer / Uint8Array) are `List Nat` with every
  element below 256 (`Bytes`).
* JavaScript strings used as plaintext are lists of Unicode code points
  (`List Nat`); strings used as transport text (base64, keys) are Lean
  `String`.
* Node's `Buffer.from(buffer).toString("base64")` is canonical base64 with
  padding; `Buffer.from(text, "base64")` is Node's forgiving decoder, which
  never throws: it stops decoding at the first padding character, skips the
  other characters outside the base64 alphabet, and a trailing group of 2 or
  3 sextets yields 1 or 2 bytes while a lone trailing sextet is dropped.
* webcrypto RSA-OAEP with a 2048-bit modulus and SHA-256 accepts messages of
  at most 256 - 2*32 - 2 = 190 bytes (RFC 8017) and raises an opaque
  OperationError beyond that; the OAEP cipher core itself is kept abstract
  (`OaepScheme`).
* webcrypto AES-CBC pads with PKCS#7, chains 16-byte blocks, and raises an
  opaque OperationError on invalid length or padding; the block cipher core
  is kept abstract (`BlockCipher`).
* TextEncoder / TextDecoder are UTF-8 on code points; the replacement
  behaviour for malformed byte input is approximated, all claims exercise the
  well-formed paths.
-/

set_option maxRecDepth 8000

namespace Decent

/-- Every element of the list is a byte value. -/
def Bytes (l : List Nat) : Prop := ∀ b ∈ l, b < 256

instance (l : List Nat) : Decidable (Bytes l) := by
  unfold Bytes; infer_instance

/-! ## Binary/Text Codec (arrayBufferToBase64 / base64ToArrayBuffer) -/

/-- The base64 alphabet, in index order. -/
def b64chars : List Char :=
  ['A', 'B', 'C', 'D', 'E', 'F', 'G', 'H', 'I', 'J', 'K', 'L', 'M',
   'N', 'O', 'P', 'Q', 'R', 'S', 'T', 'U', 'V', 'W', 'X', 'Y', 'Z',
   'a', 'b', 'c', 'd', 'e', 'f', 'g', 'h', 'i', 'j', 'k', 'l', 'm',
   'n', 'o', 'p', 'q', 'r', 's', 't', 'u', 'v', 'w', 'x', 'y', 'z',
   '0', '1', '2', '3', '4', '5', '6', '7', '8', '9', '+', '/']

/-- The alphabet character for a sextet value. -/
def sextetToChar (n : Nat) : Char := b64chars.getD n 'A'

/-- Index of a character in a list, counting from i. -/
def lookupIdx (c : Char) : List Char → Nat → Option Nat
  | [], _ => none
  | x :: xs, i => if x == c then some i else lookupIdx c xs (i + 1)

/-- The sextet value of an alphabet character; none for every other
character, including the padding character. -/
def charToSextet (c : Char) : Option Nat := lookupIdx c b64chars 0

/-- Canonical base64 encoding of a byte list, three bytes per four
characters, padded with the padding character. Models the byte-to-text
direction of Node's Buffer. -/
def b64encodeChars : List Nat → List Char
  | [] => []
  | [b0] => [sextetToChar (b0 / 4), sextetToChar (b0 % 4 * 16), '=', '=']
  | [b0, b1] => [sextetToChar (b0 / 4), sextetToChar (b0 % 4 * 16 + b1 / 16),
                 sextetToChar (b1 % 16 * 4), '=']
  | b0 :: b1 :: b2 :: rest =>
      sextetToChar (b0 / 4) :: sextetToChar (b0 % 4 * 16 + b1 / 16) ::
      sextetToChar (b1 % 16 * 4 + b2 / 64) :: sextetToChar (b2 % 64) ::
      b64encodeChars rest

/-- Reassemble bytes from a list of sextets: groups of four sextets yield
three bytes, a trailing group of three yields two bytes, of two yields one
byte, and a lone trailing sextet is dropped (Node's forgiving decoder). -/
def b64decodeSextets : List Nat → List Nat
  | s0 :: s1 :: s2 :: s3 :: rest =>
      (s0 * 4 + s1 / 16) :: (s1 % 16 * 16 + s2 / 4) :: (s2 % 4 * 64 + s3) ::
      b64decodeSextets rest
  | [s0, s1, s2] => [s0 * 4 + s1 / 16, s1 % 16 * 16 + s2 / 4]
  | [s0, s1] => [s0 * 4 + s1 / 16]
  | _ => []

/-- Model of arrayBufferToBase64: Buffer.from(buffer).toString base64. -/
def arrayBufferToBase64 (buffer : List Nat) : String :=
  String.mk (b64encodeChars buffer)

/-- Model of base64ToArrayBuffer: Buffer.from(base64, base64) followed by the
slice that copies exactly the buffer's own bytes. Node's base64 decoding
never throws: it stops at the first padding character and skips the other
characters outside the alphabet. -/
def base64ToArrayBuffer (base64 : String) : List Nat :=
  b64decodeSextets
    ((base64.data.takeWhile (fun c => c != '=')).filterMap charToSextet)

/-! ## Node Registry Store (registry.ts) -/

/-- A registry entry, as in registry.ts. JavaScript numbers are modelled as
integers here (all registry claims concern integral node ids). -/
structure Node where
  nodeId : Int
  pubKey : String
  deriving DecidableEq, Repr

/-- The two outcomes of the registerNode route: the rejection text and the
success text, abstracted to the spec's Outcome names. -/
inductive Outcome where
  | AlreadyRegistered
  | Registered
  deriving DecidableEq, Repr

/-- Model of the registerNode handler body: reject when some stored entry
shares the nodeId or the pubKey, otherwise push the new entry at the end. -/
def registerNode (nodes : List Node) (nodeId : Int) (pubKey : String) :
    Outcome × List Node :=
  if nodes.any (fun n => n.nodeId == nodeId || n.pubKey == pubKey) then
    (Outcome.AlreadyRegistered, nodes)
  else
    (Outcome.Registered, nodes ++ [⟨nodeId, pubKey⟩])

/-- The registry after a sequence of registration requests, starting from the
empty store created in launchRegistry. -/
def runRegistry (ops : List (Int × String)) : List Node :=
  ops.foldl (fun nodes op => (registerNode nodes op.1 op.2).2) []

/-- The double-uniqueness invariant: node ids pairwise distinct and public
keys pairwise distinct. -/
def RegistryInv (nodes : List Node) : Prop :=
  nodes.Pairwise (fun a b => a.nodeId ≠ b.nodeId ∧ a.pubKey ≠ b.pubKey)

theorem registerNode_dup (nodes : List Node) (id : Int) (pk : String)
    (h : ∃ n ∈ nodes, n.nodeId = id ∨ n.pubKey = pk) :
    registerNode nodes id pk = (Outcome.AlreadyRegistered, nodes) := by
  unfold registerNode
  rw [if_pos]
  rw [List.any_eq_true]
  obtain ⟨n, hn, hcase⟩ := h
  exact ⟨n, hn, by rcases hcase with h1 | h1 <;> simp [h1]⟩

theorem registerNode_fresh (nodes : List Node) (id : Int) (pk : String)
    (h : ¬ ∃ n ∈ nodes, n.nodeId = id ∨ n.pubKey = pk) :
    registerNode nodes id pk = (Outcome.Registered, nodes ++ [⟨id, pk⟩]) := by
  unfold registerNode
  rw [if_neg]
  intro hany
  rw [List.any_eq_true] at hany
  obtain ⟨n, hn, hcase⟩ := hany
  refine h ⟨n, hn, ?_⟩
  rcases Bool.or_eq_true_iff.mp hcase with h1 | h1
  · exact Or.inl (by simpa using h1)
  · exact Or.inr (by simpa using h1)

/-- C1: register(nodeId, pubKey) rejects exactly when an existing entry
shares the nodeId or the pubKey, leaving the store unchanged, and otherwise
appends the new entry at the end with the Registered outcome. -/
theorem C1_register_outcomes (nodes : List Node) (id : Int) (pk : String) :
    ((∃ n ∈ nodes, n.nodeId = id ∨ n.pubKey = pk) →
      registerNode nodes id pk = (Outcome.AlreadyRegistered, nodes)) ∧
    ((¬ ∃ n ∈ nodes, n.nodeId = id ∨ n.pubKey = pk) →
      registerNode nodes id pk = (Outcome.Registered, nodes ++ [⟨id, pk⟩])) :=
  ⟨registerNode_dup nodes id pk, registerNode_fresh nodes id pk⟩

/-- Witness for C1 at concrete inputs: a duplicate id is rejected without
change, and a fresh pair is appended. -/
theorem C1_register_outcomes_witness :
    registerNode [⟨1, "A"⟩] 1 "B" = (Outcome.AlreadyRegistered, [⟨1, "A"⟩]) ∧
    registerNode [⟨1, "A"⟩] 2 "B" =
      (Outcome.Registered, [⟨1, "A"⟩, ⟨2, "B"⟩]) := by
  constructor
  · exact (C1_register_outcomes [⟨1, "A"⟩] 1 "B").1 ⟨⟨1, "A"⟩, by simp⟩
  · exact (C1_register_outcomes [⟨1, "A"⟩] 2 "B").2 (by decide)

theorem registerNode_preserves_inv (nodes : List Node) (id : Int)
    (pk : String) (h : RegistryInv nodes) :
    RegistryInv (registerNode nodes id pk).2 := by
  by_cases hdup : ∃ n ∈ nodes, n.nodeId = id ∨ n.pubKey = pk
  · rw [registerNode_dup nodes id pk hdup]; exact h
  · rw [registerNode_fresh nodes id pk hdup]
    unfold RegistryInv at h ⊢
    rw [List.pairwise_append]
    refine ⟨h, List.pairwise_singleton _ _, ?_⟩
    intro a ha b hb
    rw [List.mem_singleton] at hb
    subst hb
    push_neg at hdup
    have := hdup a ha
    exact ⟨this.1, this.2⟩

theorem registerNode_append_only (nodes : List Node) (id : Int)
    (pk : String) : ∃ t, (registerNode nodes id pk).2 = nodes ++ t := by
  by_cases hdup : ∃ n ∈ nodes, n.nodeId = id ∨ n.pubKey = pk
  · exact ⟨[], by rw [registerNode_dup nodes id pk hdup]; simp⟩
  · exact ⟨[⟨id, pk⟩], by rw [registerNode_fresh nodes id pk hdup]⟩

theorem runRegistry_inv_aux (ops : List (Int × String)) :
    ∀ nodes, RegistryInv nodes →
      RegistryInv (ops.foldl (fun s op => (registerNode s op.1 op.2).2) nodes) := by
  induction ops with
  | nil => intro nodes h; exact h
  | cons op rest ih =>
      intro nodes h
      exact ih _ (registerNode_preserves_inv nodes op.1 op.2 h)

/-- C2: every state reachable from the empty registry by register operations
has pairwise-distinct node ids and pairwise-distinct public keys, and each
register operation only ever appends (never deletes or updates an entry). -/
theorem C2_registry_invariant (ops : List (Int × String)) :
    RegistryInv (runRegistry ops) ∧
    (∀ nodes id pk, ∃ t, (registerNode nodes id pk).2 = nodes ++ t) :=
  ⟨runRegistry_inv_aux ops [] (List.Pairwise.nil), registerNode_append_only⟩

/-! ## Codec lemmas: round trip and totality -/

theorem chunk3_ind (P : List Nat → Prop) (h0 : P []) (h1 : ∀ a, P [a])
    (h2 : ∀ a b, P [a, b])
    (h3 : ∀ a b c l, P l → P (a :: b :: c :: l)) : ∀ l, P l
  | [] => h0
  | [a] => h1 a
  | [a, b] => h2 a b
  | a :: b :: c :: l => h3 a b c l (chunk3_ind P h0 h1 h2 h3 l)

theorem chunk4_ind (P : List Nat → Prop) (h0 : P []) (h1 : ∀ a, P [a])
    (h2 : ∀ a b, P [a, b]) (h3 : ∀ a b c, P [a, b, c])
    (h4 : ∀ a b c d l, P l → P (a :: b :: c :: d :: l)) : ∀ l, P l
  | [] => h0
  | [a] => h1 a
  | [a, b] => h2 a b
  | [a, b, c] => h3 a b c
  | a :: b :: c :: d :: l => h4 a b c d l (chunk4_ind P h0 h1 h2 h3 h4 l)

theorem charToSextet_sextetToChar :
    ∀ n, n < 64 → charToSextet (sextetToChar n) = some n := by decide

theorem charToSextet_pad : charToSextet '=' = none := by decide

theorem sextetToChar_mem (n : Nat) : sextetToChar n ∈ b64chars := by
  unfold sextetToChar
  rw [List.getD_eq_getD_get?]
  cases h : b64chars.get? n with
  | none => simp only [Option.getD_none]; decide
  | some c => simpa using List.get?_mem h

theorem sextetToChar_ne_pad (n : Nat) : (sextetToChar n != '=') = true := by
  rw [bne_iff_ne]
  intro he
  have h := sextetToChar_mem n
  rw [he] at h
  exact absurd h (by decide)

theorem b64_roundtrip :
    ∀ l : List Nat, Bytes l →
      b64decodeSextets (((b64encodeChars l).takeWhile
        (fun c => c != '=')).filterMap charToSextet) = l := by
  intro l
  induction l using chunk3_ind with
  | h0 => intro _; rfl
  | h1 a =>
      intro h
      have ha : a < 256 := h a (by simp)
      have e1 := charToSextet_sextetToChar (a / 4) (by omega)
      have e2 := charToSextet_sextetToChar (a % 4 * 16) (by omega)
      have n1 := sextetToChar_ne_pad (a / 4)
      have n2 := sextetToChar_ne_pad (a % 4 * 16)
      have ht : ([sextetToChar (a / 4), sextetToChar (a % 4 * 16),
          '=', '=']).takeWhile (fun c => c != '=') =
          [sextetToChar (a / 4), sextetToChar (a % 4 * 16)] := by
        simp [List.takeWhile, n1, n2]
      simp only [b64encodeChars]
      rw [ht]
      simp [List.filterMap_cons, e1, e2, b64decodeSextets]
      omega
  | h2 a b =>
      intro h
      have ha : a < 256 := h a (by simp)
      have hb : b < 256 := h b (by simp)
      have e1 := charToSextet_sextetToChar (a / 4) (by omega)
      have e2 := charToSextet_sextetToChar (a % 4 * 16 + b / 16) (by omega)
      have e3 := charToSextet_sextetToChar (b % 16 * 4) (by omega)
      have n1 := sextetToChar_ne_pad (a / 4)
      have n2 := sextetToChar_ne_pad (a % 4 * 16 + b / 16)
      have n3 := sextetToChar_ne_pad (b % 16 * 4)
      have ht : ([sextetToChar (a / 4), sextetToChar (a % 4 * 16 + b / 16),
          sextetToChar (b % 16 * 4), '=']).takeWhile (fun c => c != '=') =
          [sextetToChar (a / 4), sextetToChar (a % 4 * 16 + b / 16),
           sextetToChar (b % 16 * 4)] := by
        simp [List.takeWhile, n1, n2, n3]
      simp only [b64encodeChars]
      rw [ht]
      simp [List.filterMap_cons, e1, e2, e3, b64decodeSextets]
      omega
  | h3 a b c l ih =>
      intro h
      have ha : a < 256 := h a (by simp)
      have hb : b < 256 := h b (by simp)
      have hc : c < 256 := h c (by simp)
      have hl : Bytes l := fun x hx => h x (by simp [hx])
      have e1 := charToSextet_sextetToChar (a / 4) (by omega)
      have e2 := charToSextet_sextetToChar (a % 4 * 16 + b / 16) (by omega)
      have e3 := charToSextet_sextetToChar (b % 16 * 4 + c / 64) (by omega)
      have e4 := charToSextet_sextetToChar (c % 64) (by omega)
      have n1 := sextetToChar_ne_pad (a / 4)
      have n2 := sextetToChar_ne_pad (a % 4 * 16 + b / 16)
      have n3 := sextetToChar_ne_pad (b % 16 * 4 + c / 64)
      have n4 := sextetToChar_ne_pad (c % 64)
      have ht : (sextetToChar (a / 4) :: sextetToChar (a % 4 * 16 + b / 16) ::
          sextetToChar (b % 16 * 4 + c / 64) :: sextetToChar (c % 64) ::
          b64encodeChars l).takeWhile (fun ch => ch != '=') =
          sextetToChar (a / 4) :: sextetToChar (a % 4 * 16 + b / 16) ::
          sextetToChar (b % 16 * 4 + c / 64) :: sextetToChar (c % 64) ::
          (b64encodeChars l).takeWhile (fun ch => ch != '=') := by
        simp [List.takeWhile, n1, n2, n3, n4]
      simp only [b64encodeChars]
      rw [ht]
      simp only [List.filterMap_cons, e1, e2, e3, e4,
        b64decodeSextets, ih hl, List.cons.injEq, and_true]
      omega

theorem decode_encode (b : List Nat) (h : Bytes b) :
    base64ToArrayBuffer (arrayBufferToBase64 b) = b :=
  b64_roundtrip b h

/-- C5: the Codec is inverse on well-formed data: for every byte sequence b,
decoding the encoding of b returns b. -/
theorem C5_codec_roundtrip (b : List Nat) (h : Bytes b) :
    base64ToArrayBuffer (arrayBufferToBase64 b) = b :=
  decode_encode b h

/-- Witness for C5 at a concrete byte sequence. -/
theorem C5_codec_roundtrip_witness :
    base64ToArrayBuffer (arrayBufferToBase64 [0, 255, 77, 3]) =
      [0, 255, 77, 3] :=
  C5_codec_roundtrip [0, 255, 77, 3] (by decide)

theorem lookupIdx_lt (c : Char) :
    ∀ (l : List Char) (i n : Nat), lookupIdx c l i = some n →
      n < i + l.length := by
  intro l
  induction l with
  | nil => intro i n h; exact absurd h (by simp [lookupIdx])
  | cons x xs ih =>
      intro i n h
      rw [lookupIdx] at h
      by_cases hx : (x == c) = true
      · rw [if_pos hx] at h
        injection h with h
        subst h
        simp
      · rw [if_neg hx] at h
        have := ih (i + 1) n h
        simp only [List.length_cons]
        omega

theorem charToSextet_lt (c : Char) (n : Nat) (h : charToSextet c = some n) :
    n < 64 := by
  have hb := lookupIdx_lt c b64chars 0 n h
  have hlen : b64chars.length = 64 := by decide
  omega

theorem filterMap_charToSextet_lt (cs : List Char) :
    ∀ n ∈ cs.filterMap charToSextet, n < 64 := by
  intro n hn
  rw [List.mem_filterMap] at hn
  obtain ⟨c, _, hc⟩ := hn
  exact charToSextet_lt c n hc

theorem b64decodeSextets_bytes :
    ∀ sx, (∀ s ∈ sx, s < 64) → Bytes (b64decodeSextets sx) := by
  intro sx
  induction sx using chunk4_ind with
  | h0 => intro _ b hb; exact absurd hb (by simp [b64decodeSextets])
  | h1 a => intro _ b hb; exact absurd hb (by simp [b64decodeSextets])
  | h2 s0 s1 =>
      intro h b hb
      have h0 := h s0 (by simp)
      have h1 := h s1 (by simp)
      simp [b64decodeSextets] at hb
      omega
  | h3 s0 s1 s2 =>
      intro h b hb
      have h0 := h s0 (by simp)
      have h1 := h s1 (by simp)
      have h2 := h s2 (by simp)
      simp [b64decodeSextets] at hb
      rcases hb with hb | hb <;> omega
  | h4 s0 s1 s2 s3 l ih =>
      intro h b hb
      have h0 := h s0 (by simp)
      have h1 := h s1 (by simp)
      have h2 := h s2 (by simp)
      have h3 := h s3 (by simp)
      have hl : ∀ s ∈ l, s < 64 := fun x hx => h x (by simp [hx])
      simp only [b64decodeSextets, List.mem_cons] at hb
      rcases hb with hb | hb | hb | hb
      · omega
      · omega
      · omega
      · exact ih hl b hb

theorem filterMap_filter_isSome {α β : Type} (f : α → Option β)
    (l : List α) :
    (l.filter (fun x => (f x).isSome)).filterMap f = l.filterMap f := by
  induction l with
  | nil => rfl
  | cons x xs ih =>
      cases hfx : f x with
      | none => simp [List.filter_cons, List.filterMap_cons, hfx, ih]
      | some b => simp [List.filter_cons, List.filterMap_cons, hfx, ih]

theorem b64encodeChars_mem :
    ∀ l, ∀ c ∈ b64encodeChars l, c ∈ b64chars ∨ c = '=' := by
  intro l
  induction l using chunk3_ind with
  | h0 => intro c hc; exact absurd hc (by simp [b64encodeChars])
  | h1 a =>
      intro c hc
      rw [b64encodeChars, List.mem_cons, List.mem_cons, List.mem_cons,
        List.mem_singleton] at hc
      rcases hc with h | h | h | h <;> subst h
      · exact Or.inl (sextetToChar_mem _)
      · exact Or.inl (sextetToChar_mem _)
      · exact Or.inr rfl
      · exact Or.inr rfl
  | h2 a b =>
      intro c hc
      rw [b64encodeChars, List.mem_cons, List.mem_cons, List.mem_cons,
        List.mem_singleton] at hc
      rcases hc with h | h | h | h <;> subst h
      · exact Or.inl (sextetToChar_mem _)
      · exact Or.inl (sextetToChar_mem _)
      · exact Or.inl (sextetToChar_mem _)
      · exact Or.inr rfl
  | h3 a b c0 l ih =>
      intro c hc
      rw [b64encodeChars, List.mem_cons, List.mem_cons, List.mem_cons,
        List.mem_cons] at hc
      rcases hc with h | h | h | h | h
      · exact h ▸ Or.inl (sextetToChar_mem _)
      · exact h ▸ Or.inl (sextetToChar_mem _)
      · exact h ▸ Or.inl (sextetToChar_mem _)
      · exact h ▸ Or.inl (sextetToChar_mem _)
      · exact ih c h

/-- C7 counterexample: the text a&b! is not a well-formed encode output (no
encode output contains the character &), yet decode does not fail on it: it
silently ignores the invalid characters and returns the byte sequence decoded
from the remaining alphabet characters. -/
theorem C7_decode_cex :
    (∀ b : List Nat, arrayBufferToBase64 b ≠ "a&b!") ∧
    base64ToArrayBuffer "a&b!" = [105] := by
  constructor
  · intro b hb
    have hchars : b64encodeChars b = "a&b!".data := congrArg String.data hb
    have hmem : '&' ∈ b64encodeChars b := by rw [hchars]; decide
    rcases b64encodeChars_mem b '&' hmem with h | h
    · exact absurd h (by decide)
    · exact absurd h (by decide)
  · decide

/-- C7 amended: decode does not fail on malformed text: it is total,
decoding the alphabet characters that precede the first padding character
while skipping the other characters outside the alphabet, and always
returns a sequence of byte values instead of raising a DecodingError. For
well-formed input there is no error case. -/
theorem C7_decode_total (s : String) :
    base64ToArrayBuffer s =
      b64decodeSextets
        (((s.data.takeWhile (fun c => c != '=')).filter
          (fun c => (charToSextet c).isSome)).filterMap charToSextet) ∧
    Bytes (base64ToArrayBuffer s) := by
  constructor
  · unfold base64ToArrayBuffer
    rw [filterMap_filter_isSome]
  · exact b64decodeSextets_bytes _ (filterMap_charToSextet_lt _)

/-! ## Error kinds and key handles -/

/-- The error kinds named by the spec, plus OperationError, the opaque
failure webcrypto raises from a failed subtle operation. -/
inductive CryptoError where
  | OperationError
  | PayloadTooLargeError
  | DecodingError
  | KeyFormatError
  | DecryptionError
  deriving DecidableEq, Repr

/-- A webcrypto key handle, identified by its exported byte serialization
(SubjectPublicKeyInfo for public keys, PKCS#8 for private keys, raw bytes
for symmetric keys). Export and import of a valid key are deterministic and
byte-preserving, so the observable content of a key handle is exactly this
byte list; usages and algorithm tags carry no further observable state for
the operations modelled here. -/
structure CryptoKey where
  keyBytes : List Nat
  deriving DecidableEq, Repr

/-- Model of exportPubKey: export the SPKI bytes, then base64-encode. -/
def exportPubKey (key : CryptoKey) : String :=
  arrayBufferToBase64 key.keyBytes

/-- Model of exportPrvKey: a null key maps to null (the code's if-guard);
otherwise export the PKCS#8 bytes, then base64-encode. -/
def exportPrvKey : Option CryptoKey → Option String
  | some key => some (arrayBufferToBase64 key.keyBytes)
  | none => none

/-- Model of importPubKey: base64-decode the SPKI bytes. -/
def importPubKey (strKey : String) : CryptoKey :=
  ⟨base64ToArrayBuffer strKey⟩

/-- Model of importPrvKey: base64-decode the PKCS#8 bytes. -/
def importPrvKey (strKey : String) : CryptoKey :=
  ⟨base64ToArrayBuffer strKey⟩

/-- Model of exportSymKey: export the raw bytes, then base64-encode. -/
def exportSymKey (key : CryptoKey) : String :=
  arrayBufferToBase64 key.keyBytes

/-- Model of importSymKey: base64-decode the raw bytes. -/
def importSymKey (strKey : String) : CryptoKey :=
  ⟨base64ToArrayBuffer strKey⟩

/-! ## Asymmetric transport (RSA-OAEP 2048 with SHA-256) -/

/-- Abstract RSA-OAEP cipher core: enc maps public-key bytes and message
bytes to ciphertext bytes, dec maps private-key bytes and ciphertext to the
message or a failure. The cipher itself lives in webcrypto, outside the
repository; the claims hold for every core, with the standard inverse and
byte-range facts taken as hypotheses where a claim needs them. -/
structure OaepScheme where
  enc : List Nat → List Nat → List Nat
  dec : List Nat → List Nat → Except CryptoError (List Nat)

/-- RFC 8017 message bound for RSA-OAEP: modulus bytes minus twice the hash
length minus 2, here 256 - 2 * 32 - 2 = 190 for a 2048-bit key with
SHA-256. -/
def rsaMaxLen : Nat := 190

/-- webcrypto subtle.encrypt for RSA-OAEP 2048/SHA-256: a message above the
RFC 8017 bound makes the operation itself throw the opaque OperationError. -/
def subtleRsaEncrypt (S : OaepScheme) (key : CryptoKey) (msg : List Nat) :
    Except CryptoError (List Nat) :=
  if rsaMaxLen < msg.length then Except.error CryptoError.OperationError
  else Except.ok (S.enc key.keyBytes msg)

/-- Model of rsaEncrypt: import the public key text, base64-decode the data
argument, encrypt, base64-encode the result. The source performs no size
check of its own before calling the subtle operation. -/
def rsaEncrypt (S : OaepScheme) (b64Data : String) (strPublicKey : String) :
    Except CryptoError String :=
  (subtleRsaEncrypt S (importPubKey strPublicKey)
    (base64ToArrayBuffer b64Data)).map arrayBufferToBase64

/-- Model of rsaDecrypt: base64-decode the data, decrypt with the private
key, base64-encode the decrypted bytes. -/
def rsaDecrypt (S : OaepScheme) (data : String) (privateKey : CryptoKey) :
    Except CryptoError String :=
  (S.dec privateKey.keyBytes (base64ToArrayBuffer data)).map
    arrayBufferToBase64

/-- A concrete scheme instance for witnesses and counterexamples: the cipher
core is the identity on messages. -/
def oaepTrivial : OaepScheme :=
  ⟨fun _ msg => msg, fun _ ct => Except.ok ct⟩

/-- C3 counterexample: a 191-byte payload makes rsaEncrypt fail inside the
underlying subtle operation with the opaque OperationError; it is not the
PayloadTooLargeError the claim requires, and no check runs before the
operation is attempted. -/
theorem C3_no_size_precheck_cex :
    rsaEncrypt oaepTrivial (arrayBufferToBase64 (List.replicate 191 0))
        (arrayBufferToBase64 []) =
      Except.error CryptoError.OperationError ∧
    CryptoError.OperationError ≠ CryptoError.PayloadTooLargeError := by
  constructor
  · unfold rsaEncrypt subtleRsaEncrypt
    rw [decode_encode (List.replicate 191 0)
      (fun b hb => by rw [List.eq_of_mem_replicate hb]; decide)]
    rw [if_pos (by simp [rsaMaxLen])]
    rfl
  · decide

/-- C3 amended: rsaEncrypt has no size pre-check: when the base64-decoded
payload exceeds 190 bytes (the RFC 8017 bound for a 2048-bit key with
SHA-256) the underlying RSA-OAEP operation itself fails with the opaque
OperationError - never a PayloadTooLargeError and never a truncation - and
for payloads of at most 190 bytes no size error occurs. -/
theorem C3_rsaEncrypt_bound (S : OaepScheme) (b64Data strPublicKey : String) :
    (190 < (base64ToArrayBuffer b64Data).length →
      rsaEncrypt S b64Data strPublicKey =
        Except.error CryptoError.OperationError) ∧
    ((base64ToArrayBuffer b64Data).length ≤ 190 →
      rsaEncrypt S b64Data strPublicKey =
        Except.ok (arrayBufferToBase64
          (S.enc (base64ToArrayBuffer strPublicKey)
            (base64ToArrayBuffer b64Data)))) := by
  constructor
  · intro h
    unfold rsaEncrypt subtleRsaEncrypt
    rw [if_pos (by simpa [rsaMaxLen] using h)]
    rfl
  · intro h
    unfold rsaEncrypt subtleRsaEncrypt
    rw [if_neg (by simp only [rsaMaxLen, not_lt]; omega)]
    rfl

/-- Witness for C3 amended: a 3-byte payload encrypts without a size
error. -/
theorem C3_rsaEncrypt_bound_witness :
    rsaEncrypt oaepTrivial (arrayBufferToBase64 [1, 2, 3])
        (arrayBufferToBase64 []) =
      Except.ok (arrayBufferToBase64 [1, 2, 3]) := by
  have h := (C3_rsaEncrypt_bound oaepTrivial (arrayBufferToBase64 [1, 2, 3])
    (arrayBufferToBase64 [])).2 (by decide)
  rw [decode_encode [1, 2, 3] (by decide)] at h
  exact h

/-- C9: exportPrvKey maps null to null, an explicit absent value, rather
than failing, and maps every non-null private key to the base64 text of its
PKCS#8 byte serialization. -/
theorem C9_exportPrvKey_null (k : CryptoKey) :
    exportPrvKey none = none ∧
    exportPrvKey (some k) = some (arrayBufferToBase64 k.keyBytes) :=
  ⟨rfl, rfl⟩

/-! ## Symmetric transport (AES-CBC, 16-byte blocks, PKCS#7 padding) -/

/-- Bytewise xor of two buffers. -/
def xorBytes (a b : List Nat) : List Nat :=
  List.zipWith (fun x y => x ^^^ y) a b

/-- Abstract 16-byte block cipher core (the AES permutation lives in
webcrypto, outside the repository). -/
structure BlockCipher where
  enc : List Nat → List Nat → List Nat
  dec : List Nat → List Nat → List Nat

/-- The facts the claims need about a block cipher core: on 16-byte byte
blocks, enc preserves length and byte range and dec inverts enc. The AES
permutation satisfies all three. -/
def GoodCipher (C : BlockCipher) : Prop :=
  ∀ k b, b.length = 16 → Bytes b →
    (C.enc k b).length = 16 ∧ Bytes (C.enc k b) ∧ C.dec k (C.enc k b) = b

/-- Split a buffer into 16-byte blocks. -/
def toBlocks (l : List Nat) : List (List Nat) :=
  if h : l = [] then [] else l.take 16 :: toBlocks (l.drop 16)
termination_by l.length
decreasing_by
  simp only [List.length_drop]
  have : 0 < l.length := List.length_pos.mpr h
  omega

/-- CBC encryption over a block list with chaining value prev. -/
def cbcEnc (C : BlockCipher) (k prev : List Nat) :
    List (List Nat) → List (List Nat)
  | [] => []
  | b :: bs =>
      C.enc k (xorBytes prev b) :: cbcEnc C k (C.enc k (xorBytes prev b)) bs

/-- CBC decryption over a block list with chaining value prev. -/
def cbcDec (C : BlockCipher) (k prev : List Nat) :
    List (List Nat) → List (List Nat)
  | [] => []
  | c :: cs => xorBytes prev (C.dec k c) :: cbcDec C k c cs

/-- PKCS#7 padding: appends between 1 and 16 bytes, each equal to the pad
length. -/
def pkcs7Pad (msg : List Nat) : List Nat :=
  msg ++ List.replicate (16 - msg.length % 16) (16 - msg.length % 16)

/-- PKCS#7 unpadding: the last byte names the pad length; the pad must be
that many copies of it, else the padding is invalid. Only the tail of the
plaintext is inspected - CBC has no further integrity check. -/
def pkcs7Unpad (pt : List Nat) : Except CryptoError (List Nat) :=
  if 1 ≤ pt.getLastD 0 ∧ pt.getLastD 0 ≤ 16 ∧ pt.getLastD 0 ≤ pt.length ∧
      pt.drop (pt.length - pt.getLastD 0) =
        List.replicate (pt.getLastD 0) (pt.getLastD 0) then
    Except.ok (pt.take (pt.length - pt.getLastD 0))
  else Except.error CryptoError.OperationError

/-- webcrypto subtle.encrypt for AES-CBC: pad, split into blocks, chain. -/
def subtleCbcEncrypt (C : BlockCipher) (key iv msg : List Nat) : List Nat :=
  (cbcEnc C key iv (toBlocks (pkcs7Pad msg))).flatten

/-- webcrypto subtle.decrypt for AES-CBC: the ciphertext length must be a
multiple of 16 and the padding must check out, else the opaque
OperationError. -/
def subtleCbcDecrypt (C : BlockCipher) (key iv ct : List Nat) :
    Except CryptoError (List Nat) :=
  if ct.length % 16 = 0 then
    pkcs7Unpad (cbcDec C key iv (toBlocks ct)).flatten
  else Except.error CryptoError.OperationError

/-- UTF-8 bytes of one code point (TextEncoder). -/
def utf8EncodeChar (c : Nat) : List Nat :=
  if c < 128 then [c]
  else if c < 2048 then [192 + c / 64, 128 + c % 64]
  else if c < 65536 then [224 + c / 4096, 128 + c / 64 % 64, 128 + c % 64]
  else [240 + c / 262144, 128 + c / 4096 % 64, 128 + c / 64 % 64,
        128 + c % 64]

/-- UTF-8 bytes of a string of code points (TextEncoder). -/
def utf8Encode (s : List Nat) : List Nat := (s.map utf8EncodeChar).flatten

/-- UTF-8 decoding of a byte list back to code points (TextDecoder): the
leading byte selects the sequence length and the continuation bytes
contribute six bits each. The claims exercise it on well-formed encoder
output only; the handling of truncated or malformed input approximates the
decoder and is never reached. -/
def utf8Decode (l : List Nat) : List Nat :=
  match l with
  | [] => []
  | b :: rest =>
      if b < 128 then b :: utf8Decode rest
      else if b < 224 then
        (b % 32 * 64 + rest.headD 0 % 64) :: utf8Decode (rest.drop 1)
      else if b < 240 then
        (b % 16 * 4096 + rest.headD 0 % 64 * 64 +
          (rest.drop 1).headD 0 % 64) :: utf8Decode (rest.drop 2)
      else
        (b % 8 * 262144 + rest.headD 0 % 64 * 4096 +
          (rest.drop 1).headD 0 % 64 * 64 + (rest.drop 2).headD 0 % 64) ::
        utf8Decode (rest.drop 3)
termination_by l.length
decreasing_by
  all_goals simp only [List.length_drop, List.length_cons]
  all_goals omega

/-- Model of symEncrypt: UTF-8 encode the plaintext, draw a fresh 16-byte
random IV (modelled as the iv argument; getRandomValues always yields 16
bytes below 256), AES-CBC encrypt, and emit the base64 text of the IV
followed by the cipher output. -/
def symEncrypt (C : BlockCipher) (key : CryptoKey) (iv : List Nat)
    (data : List Nat) : String :=
  arrayBufferToBase64
    (iv ++ subtleCbcEncrypt C key.keyBytes iv (utf8Encode data))

/-- Model of symDecrypt: base64-decode the buffer, import the key text,
split at exactly byte 16 into IV and cipher output, AES-CBC decrypt, UTF-8
decode the plaintext bytes. -/
def symDecrypt (C : BlockCipher) (strKey : String) (encryptedData : String) :
    Except CryptoError (List Nat) :=
  (subtleCbcDecrypt C (importSymKey strKey).keyBytes
    ((base64ToArrayBuffer encryptedData).take 16)
    ((base64ToArrayBuffer encryptedData).drop 16)).map utf8Decode

/-- Identity block cipher core: a concrete GoodCipher instance for
witnesses and counterexamples. -/
def idCipher : BlockCipher := ⟨fun _ b => b, fun _ b => b⟩

theorem idCipher_good : GoodCipher idCipher :=
  fun _ _ h1 h2 => ⟨h1, h2, rfl⟩

/-- Xor 1 into the first byte of a buffer (a one-byte tamper). -/
def flipFirstByte : List Nat → List Nat
  | [] => []
  | x :: r => (x ^^^ 1) :: r

/-! ## Block, xor, padding and UTF-8 lemmas -/

theorem toBlocks_cons16 (l r : List Nat) (h : l.length = 16) :
    toBlocks (l ++ r) = l :: toBlocks r := by
  rw [toBlocks]
  rw [dif_neg (by
    intro hc
    have : (l ++ r).length = 0 := by rw [hc]; rfl
    simp [h] at this)]
  rw [List.take_left' h, List.drop_left' h]

theorem flatten_toBlocks (l : List Nat) : (toBlocks l).flatten = l := by
  by_cases h : l = []
  · subst h; rw [toBlocks]; simp
  · rw [toBlocks, dif_neg h]
    have ih := flatten_toBlocks (l.drop 16)
    simp only [List.flatten_cons]
    rw [ih, List.take_append_drop]
termination_by l.length
decreasing_by
  simp only [List.length_drop]
  have : 0 < l.length := List.length_pos.mpr h
  omega

theorem toBlocks_flatten (bs : List (List Nat))
    (h : ∀ b ∈ bs, b.length = 16) : toBlocks bs.flatten = bs := by
  induction bs with
  | nil => rw [toBlocks]; simp
  | cons b rest ih =>
      have hb : b.length = 16 := h b (by simp)
      have hrest : ∀ x ∈ rest, x.length = 16 := fun x hx => h x (by simp [hx])
      rw [List.flatten_cons, toBlocks_cons16 b _ hb, ih hrest]

theorem length_flatten_16 (bs : List (List Nat))
    (h : ∀ b ∈ bs, b.length = 16) : bs.flatten.length = 16 * bs.length := by
  induction bs with
  | nil => rfl
  | cons b rest ih =>
      have hb := h b (by simp)
      have hrest : ∀ x ∈ rest, x.length = 16 := fun x hx => h x (by simp [hx])
      simp only [List.flatten_cons, List.length_append, List.length_cons, hb,
        ih hrest]
      ring

theorem mem_toBlocks_len (l : List Nat) (hl : l.length % 16 = 0) :
    ∀ b ∈ toBlocks l, b.length = 16 := by
  by_cases h : l = []
  · subst h; rw [toBlocks]; simp
  · rw [toBlocks, dif_neg h]
    intro b hb
    have hpos : 0 < l.length := List.length_pos.mpr h
    have h16 : 16 ≤ l.length := by omega
    rcases List.mem_cons.mp hb with hb | hb
    · subst hb; rw [List.length_take]; omega
    · exact mem_toBlocks_len (l.drop 16)
        (by rw [List.length_drop]; omega) b hb
termination_by l.length
decreasing_by
  simp only [List.length_drop]
  omega

theorem mem_toBlocks_sub (l : List Nat) :
    ∀ b ∈ toBlocks l, ∀ x ∈ b, x ∈ l := by
  by_cases h : l = []
  · subst h; rw [toBlocks]; simp
  · rw [toBlocks, dif_neg h]
    intro b hb x hx
    rcases List.mem_cons.mp hb with hb | hb
    · subst hb; exact List.take_subset 16 l hx
    · exact List.drop_subset 16 l (mem_toBlocks_sub (l.drop 16) b hb x hx)
termination_by l.length
decreasing_by
  simp only [List.length_drop]
  have : 0 < l.length := List.length_pos.mpr h
  omega

theorem xorBytes_length (a b : List Nat) :
    (xorBytes a b).length = min a.length b.length := by
  unfold xorBytes
  exact List.length_zipWith _ a b

theorem xorBytes_bytes : ∀ a b, Bytes a → Bytes b → Bytes (xorBytes a b)
  | [], _, _, _ => by intro x hx; simp [xorBytes] at hx
  | _ :: _, [], _, _ => by intro x hx; simp [xorBytes] at hx
  | y :: ys, z :: zs, ha, hb => by
      intro x hx
      simp only [xorBytes, List.zipWith_cons_cons, List.mem_cons] at hx
      rcases hx with hx | hx
      · subst hx
        have hy := ha y (by simp)
        have hz := hb z (by simp)
        have h256 : (2 : Nat) ^ 8 = 256 := by norm_num
        rw [← h256] at hy hz
        have hlt := Nat.xor_lt_two_pow hy hz
        rw [h256] at hlt
        exact hlt
      · exact xorBytes_bytes ys zs (fun u hu => ha u (by simp [hu]))
          (fun u hu => hb u (by simp [hu])) x hx

theorem xorBytes_cancel :
    ∀ a b : List Nat, a.length = b.length → xorBytes a (xorBytes a b) = b
  | [], [], _ => rfl
  | [], _ :: _, h => by simp at h
  | _ :: _, [], h => by simp at h
  | y :: ys, z :: zs, h => by
      have ih := xorBytes_cancel ys zs (by simpa using h)
      simp only [xorBytes, List.zipWith_cons_cons] at ih ⊢
      rw [← Nat.xor_assoc, Nat.xor_self, Nat.zero_xor, ih]

theorem cbcEnc_blocks (C : BlockCipher) (hC : GoodCipher C) (k : List Nat) :
    ∀ bs prev, prev.length = 16 → Bytes prev →
      (∀ b ∈ bs, b.length = 16 ∧ Bytes b) →
      ∀ c ∈ cbcEnc C k prev bs, c.length = 16 ∧ Bytes c := by
  intro bs
  induction bs with
  | nil => intro prev _ _ _ c hc; simp [cbcEnc] at hc
  | cons b rest ih =>
      intro prev hp hpB hbs c hc
      have hb := hbs b (by simp)
      have hx16 : (xorBytes prev b).length = 16 := by
        rw [xorBytes_length, hp, hb.1]; exact min_self 16
      have hxB : Bytes (xorBytes prev b) := xorBytes_bytes prev b hpB hb.2
      have henc := hC k (xorBytes prev b) hx16 hxB
      rw [cbcEnc] at hc
      rcases List.mem_cons.mp hc with hc | hc
      · subst hc; exact ⟨henc.1, henc.2.1⟩
      · exact ih (C.enc k (xorBytes prev b)) henc.1 henc.2.1
          (fun x hx => hbs x (by simp [hx])) c hc

theorem cbcDec_cbcEnc (C : BlockCipher) (hC : GoodCipher C) (k : List Nat) :
    ∀ bs prev, prev.length = 16 → Bytes prev →
      (∀ b ∈ bs, b.length = 16 ∧ Bytes b) →
      cbcDec C k prev (cbcEnc C k prev bs) = bs := by
  intro bs
  induction bs with
  | nil => intro prev _ _ _; rfl
  | cons b rest ih =>
      intro prev hp hpB hbs
      have hb := hbs b (by simp)
      have hx16 : (xorBytes prev b).length = 16 := by
        rw [xorBytes_length, hp, hb.1]; exact min_self 16
      have hxB : Bytes (xorBytes prev b) := xorBytes_bytes prev b hpB hb.2
      have henc := hC k (xorBytes prev b) hx16 hxB
      rw [cbcEnc, cbcDec, henc.2.2, xorBytes_cancel prev b (by rw [hp, hb.1]),
        ih (C.enc k (xorBytes prev b)) henc.1 henc.2.1
          (fun x hx => hbs x (by simp [hx]))]

theorem pkcs7_roundtrip (msg : List Nat) :
    pkcs7Unpad (pkcs7Pad msg) = Except.ok msg := by
  have hp1 : 1 ≤ 16 - msg.length % 16 := by omega
  have hp16 : 16 - msg.length % 16 ≤ 16 := by omega
  obtain ⟨q, hq⟩ : ∃ q, 16 - msg.length % 16 = q + 1 :=
    ⟨15 - msg.length % 16, by omega⟩
  have hlast : (pkcs7Pad msg).getLastD 0 = 16 - msg.length % 16 := by
    unfold pkcs7Pad
    rw [hq, List.replicate_succ', ← List.append_assoc]
    simp
  have hlen : (pkcs7Pad msg).length =
      msg.length + (16 - msg.length % 16) := by
    unfold pkcs7Pad; simp
  have hdrop : (pkcs7Pad msg).drop msg.length =
      List.replicate (16 - msg.length % 16) (16 - msg.length % 16) := by
    unfold pkcs7Pad; exact List.drop_left _ _
  have htake : (pkcs7Pad msg).take msg.length = msg := by
    unfold pkcs7Pad; exact List.take_left _ _
  unfold pkcs7Unpad
  rw [if_pos]
  · rw [hlast, hlen,
      show msg.length + (16 - msg.length % 16) - (16 - msg.length % 16) =
        msg.length from by omega, htake]
  · refine ⟨?_, ?_, ?_, ?_⟩
    · rw [hlast]; exact hp1
    · rw [hlast]; exact hp16
    · rw [hlast, hlen]; omega
    · rw [hlast, hlen,
        show msg.length + (16 - msg.length % 16) - (16 - msg.length % 16) =
          msg.length from by omega]
      exact hdrop

theorem pkcs7Pad_len (msg : List Nat) : (pkcs7Pad msg).length % 16 = 0 := by
  unfold pkcs7Pad
  rw [List.length_append, List.length_replicate]
  omega

theorem pkcs7Pad_bytes (msg : List Nat) (h : Bytes msg) :
    Bytes (pkcs7Pad msg) := by
  intro x hx
  unfold pkcs7Pad at hx
  rcases List.mem_append.mp hx with hx | hx
  · exact h x hx
  · rw [List.eq_of_mem_replicate hx]; omega

theorem utf8EncodeChar_bytes (c : Nat) (h : c < 1114112) :
    Bytes (utf8EncodeChar c) := by
  intro x hx
  unfold utf8EncodeChar at hx
  split_ifs at hx with h1 h2 h3 <;> simp at hx
  · omega
  · rcases hx with hx | hx <;> omega
  · rcases hx with hx | hx | hx <;> omega
  · rcases hx with hx | hx | hx | hx <;> omega

theorem utf8Encode_bytes (s : List Nat) (h : ∀ c ∈ s, c < 1114112) :
    Bytes (utf8Encode s) := by
  intro x hx
  unfold utf8Encode at hx
  rw [List.mem_flatten] at hx
  obtain ⟨b, hb, hxb⟩ := hx
  rw [List.mem_map] at hb
  obtain ⟨c, hc, hbc⟩ := hb
  exact utf8EncodeChar_bytes c (h c hc) x (hbc ▸ hxb)

theorem utf8Decode_encodeChar (c : Nat) (hc : c < 1114112)
    (rest : List Nat) :
    utf8Decode (utf8EncodeChar c ++ rest) = c :: utf8Decode rest := by
  unfold utf8EncodeChar
  split_ifs with h1 h2 h3
  · simp only [List.cons_append, List.nil_append]
    simp only [utf8Decode]
    rw [if_pos h1]
  · simp only [List.cons_append, List.nil_append]
    simp only [utf8Decode]
    rw [if_neg (by omega), if_pos (by omega)]
    simp only [List.headD_cons, List.drop_succ_cons, List.drop_zero]
    congr 1
    omega
  · simp only [List.cons_append, List.nil_append]
    simp only [utf8Decode]
    rw [if_neg (by omega), if_neg (by omega), if_pos (by omega)]
    simp only [List.headD_cons, List.drop_succ_cons, List.drop_zero]
    congr 1
    omega
  · simp only [List.cons_append, List.nil_append]
    simp only [utf8Decode]
    rw [if_neg (by omega), if_neg (by omega), if_neg (by omega)]
    simp only [List.headD_cons, List.drop_succ_cons, List.drop_zero]
    congr 1
    omega

theorem utf8_roundtrip :
    ∀ s, (∀ c ∈ s, c < 1114112) → utf8Decode (utf8Encode s) = s := by
  intro s
  induction s with
  | nil => intro _; simp [utf8Encode, utf8Decode]
  | cons c rest ih =>
      intro h
      have henc : utf8Encode (c :: rest) =
          utf8EncodeChar c ++ utf8Encode rest := by
        unfold utf8Encode; simp
      rw [henc, utf8Decode_encodeChar c (h c (by simp)),
        ih (fun x hx => h x (by simp [hx]))]

theorem utf8Decode_ascii :
    ∀ l, (∀ b ∈ l, b < 128) → utf8Decode l = l := by
  intro l
  induction l with
  | nil => intro _; simp [utf8Decode]
  | cons b rest ih =>
      intro h
      simp only [utf8Decode]
      rw [if_pos (h b (by simp)), ih (fun x hx => h x (by simp [hx]))]

theorem xor_byte (a b : Nat) (ha : a < 256) (hb : b < 256) :
    a ^^^ b < 256 := by
  have h256 : (2 : Nat) ^ 8 = 256 := by norm_num
  rw [← h256] at ha hb ⊢
  exact Nat.xor_lt_two_pow ha hb

theorem xorBytes_cons (x y : Nat) (xs ys : List Nat) :
    xorBytes (x :: xs) (y :: ys) = (x ^^^ y) :: xorBytes xs ys := rfl

theorem toBlocks_nil : toBlocks [] = [] := by
  rw [toBlocks]; simp

theorem toBlocks_single (l : List Nat) (h : l.length = 16) :
    toBlocks l = [l] := by
  have hc := toBlocks_cons16 l [] h
  rw [List.append_nil] at hc
  rw [hc, toBlocks_nil]

theorem utf8Encode_ascii :
    ∀ s, (∀ c ∈ s, c < 128) → utf8Encode s = s := by
  intro s
  induction s with
  | nil => intro _; rfl
  | cons c rest ih =>
      intro h
      have henc : utf8Encode (c :: rest) =
          utf8EncodeChar c ++ utf8Encode rest := by
        unfold utf8Encode; simp
      rw [henc, ih (fun x hx => h x (by simp [hx]))]
      unfold utf8EncodeChar
      rw [if_pos (h c (by simp))]
      rfl

/-- C4: the symmetric transport round-trips: decrypting under the exported
key what was encrypted under the key returns the original plaintext, and
the encrypt output is the text encoding of the 16-byte IV followed by the
cipher output of the UTF-8 plaintext bytes (which symDecrypt splits back at
exactly byte 16). -/
theorem C4_sym_roundtrip (C : BlockCipher) (hC : GoodCipher C)
    (key : CryptoKey) (iv data : List Nat) (hkey : Bytes key.keyBytes)
    (hiv : iv.length = 16) (hivB : Bytes iv)
    (hdata : ∀ c ∈ data, c < 1114112) :
    symDecrypt C (exportSymKey key) (symEncrypt C key iv data) =
      Except.ok data ∧
    base64ToArrayBuffer (symEncrypt C key iv data) =
      iv ++ subtleCbcEncrypt C key.keyBytes iv (utf8Encode data) := by
  have hmsgB : Bytes (utf8Encode data) := utf8Encode_bytes data hdata
  have hpadB : Bytes (pkcs7Pad (utf8Encode data)) := pkcs7Pad_bytes _ hmsgB
  have hpadLen := pkcs7Pad_len (utf8Encode data)
  have hblocks : ∀ b ∈ toBlocks (pkcs7Pad (utf8Encode data)),
      b.length = 16 ∧ Bytes b :=
    fun b hb => ⟨mem_toBlocks_len _ hpadLen b hb,
      fun x hx => hpadB x (mem_toBlocks_sub _ b hb x hx)⟩
  have hctBlocks := cbcEnc_blocks C hC key.keyBytes
    (toBlocks (pkcs7Pad (utf8Encode data))) iv hiv hivB hblocks
  have hctLen16 : ∀ b ∈ cbcEnc C key.keyBytes iv
      (toBlocks (pkcs7Pad (utf8Encode data))), b.length = 16 :=
    fun b hb => (hctBlocks b hb).1
  have hctB : Bytes (subtleCbcEncrypt C key.keyBytes iv (utf8Encode data)) := by
    intro x hx
    unfold subtleCbcEncrypt at hx
    rw [List.mem_flatten] at hx
    obtain ⟨b, hb, hxb⟩ := hx
    exact (hctBlocks b hb).2 x hxb
  have hbufB :
      Bytes (iv ++ subtleCbcEncrypt C key.keyBytes iv (utf8Encode data)) := by
    intro x hx
    rcases List.mem_append.mp hx with hx | hx
    · exact hivB x hx
    · exact hctB x hx
  have hdec : base64ToArrayBuffer (symEncrypt C key iv data) =
      iv ++ subtleCbcEncrypt C key.keyBytes iv (utf8Encode data) := by
    unfold symEncrypt
    exact decode_encode _ hbufB
  refine ⟨?_, hdec⟩
  unfold symDecrypt
  rw [hdec, List.take_left' hiv, List.drop_left' hiv]
  have hkeyEq : (importSymKey (exportSymKey key)).keyBytes = key.keyBytes := by
    unfold importSymKey exportSymKey
    exact decode_encode _ hkey
  rw [hkeyEq]
  unfold subtleCbcDecrypt subtleCbcEncrypt
  rw [if_pos (by rw [length_flatten_16 _ hctLen16]; omega)]
  rw [toBlocks_flatten _ hctLen16]
  rw [cbcDec_cbcEnc C hC key.keyBytes _ iv hiv hivB hblocks]
  rw [flatten_toBlocks, pkcs7_roundtrip]
  show Except.ok (utf8Decode (utf8Encode data)) = Except.ok data
  rw [utf8_roundtrip data hdata]

/-- Witness for C4 at a concrete cipher core, key, IV and plaintext. -/
theorem C4_sym_roundtrip_witness :
    symDecrypt idCipher (exportSymKey ⟨List.replicate 32 7⟩)
      (symEncrypt idCipher ⟨List.replicate 32 7⟩ (List.replicate 16 0)
        [104, 105]) = Except.ok [104, 105] :=
  (C4_sym_roundtrip idCipher idCipher_good ⟨List.replicate 32 7⟩
    (List.replicate 16 0) [104, 105]
    (fun b hb => by rw [List.eq_of_mem_replicate hb]; decide)
    (by simp)
    (fun b hb => by rw [List.eq_of_mem_replicate hb]; decide)
    (by decide)).1

theorem xor_flip_head (a : Nat) : a ^^^ 1 ^^^ (a ^^^ 65) = 64 := by
  rw [Nat.xor_comm a 1, Nat.xor_assoc, ← Nat.xor_assoc a a 65, Nat.xor_self,
    Nat.zero_xor]
  decide

/-- Flipping the first IV byte of a two-block CBC ciphertext produced for
the plaintext of sixteen code-65 characters yields a successful decryption
of a plaintext whose first character changed to code 64: CBC padding only
inspects the final block, so the tamper goes undetected. -/
theorem sym_iv_flip (C : BlockCipher) (hC : GoodCipher C) (key : CryptoKey)
    (iv : List Nat) (hkey : Bytes key.keyBytes) (hiv : iv.length = 16)
    (hivB : Bytes iv) :
    symDecrypt C (exportSymKey key)
      (arrayBufferToBase64 (flipFirstByte (base64ToArrayBuffer
        (symEncrypt C key iv (List.replicate 16 65))))) =
      Except.ok (64 :: List.replicate 15 65) := by
  obtain ⟨i0, ivt, rfl⟩ : ∃ i0 ivt, iv = i0 :: ivt := by
    cases iv with
    | nil => simp at hiv
    | cons a l => exact ⟨a, l, rfl⟩
  have hivt : ivt.length = 15 := by simpa using hiv
  have hi0 : i0 < 256 := hivB i0 (by simp)
  have hivtB : Bytes ivt := fun x hx => hivB x (by simp [hx])
  have hrepB : Bytes (List.replicate 16 (65 : Nat)) :=
    fun x hx => by rw [List.eq_of_mem_replicate hx]; decide
  have hpadB2 : Bytes (List.replicate 16 (16 : Nat)) :=
    fun x hx => by rw [List.eq_of_mem_replicate hx]; decide
  have hmsg : utf8Encode (List.replicate 16 65) = List.replicate 16 65 :=
    utf8Encode_ascii _ (fun c hc => by rw [List.eq_of_mem_replicate hc]; decide)
  have hpad : pkcs7Pad (List.replicate 16 65) =
      List.replicate 16 65 ++ List.replicate 16 16 := by
    unfold pkcs7Pad; simp
  have hblocks : toBlocks (pkcs7Pad (List.replicate 16 65)) =
      [List.replicate 16 65, List.replicate 16 16] := by
    rw [hpad, toBlocks_cons16 _ _ (by simp), toBlocks_single _ (by simp)]
  -- facts about the first cipher block
  have hx1len : (xorBytes (i0 :: ivt) (List.replicate 16 65)).length = 16 := by
    rw [xorBytes_length, hiv]; simp
  have hx1B : Bytes (xorBytes (i0 :: ivt) (List.replicate 16 65)) :=
    xorBytes_bytes _ _ hivB hrepB
  have he1 := hC key.keyBytes (xorBytes (i0 :: ivt) (List.replicate 16 65))
    hx1len hx1B
  -- facts about the second cipher block
  have hx2len : (xorBytes (C.enc key.keyBytes
      (xorBytes (i0 :: ivt) (List.replicate 16 65)))
      (List.replicate 16 16)).length = 16 := by
    rw [xorBytes_length, he1.1]; simp
  have hx2B : Bytes (xorBytes (C.enc key.keyBytes
      (xorBytes (i0 :: ivt) (List.replicate 16 65)))
      (List.replicate 16 16)) :=
    xorBytes_bytes _ _ he1.2.1 hpadB2
  have he2 := hC key.keyBytes (xorBytes (C.enc key.keyBytes
    (xorBytes (i0 :: ivt) (List.replicate 16 65)))
    (List.replicate 16 16)) hx2len hx2B
  -- the encrypted buffer
  unfold symEncrypt subtleCbcEncrypt
  rw [hmsg, hblocks]
  simp only [cbcEnc, List.flatten_cons, List.flatten_nil, List.append_nil]
  have hbufB : Bytes ((i0 :: ivt) ++
      (C.enc key.keyBytes (xorBytes (i0 :: ivt) (List.replicate 16 65)) ++
       C.enc key.keyBytes (xorBytes (C.enc key.keyBytes
         (xorBytes (i0 :: ivt) (List.replicate 16 65)))
         (List.replicate 16 16)))) := by
    intro x hx
    rcases List.mem_append.mp hx with hx | hx
    · exact hivB x hx
    · rcases List.mem_append.mp hx with hx | hx
      · exact he1.2.1 x hx
      · exact he2.2.1 x hx
  rw [decode_encode _ hbufB]
  simp only [List.cons_append, flipFirstByte]
  have htampB : Bytes ((i0 ^^^ 1) :: (ivt ++
      (C.enc key.keyBytes (xorBytes (i0 :: ivt) (List.replicate 16 65)) ++
       C.enc key.keyBytes (xorBytes (C.enc key.keyBytes
         (xorBytes (i0 :: ivt) (List.replicate 16 65)))
         (List.replicate 16 16))))) := by
    intro x hx
    rcases List.mem_cons.mp hx with hx | hx
    · rw [hx]; exact xor_byte i0 1 hi0 (by decide)
    · rcases List.mem_append.mp hx with hx | hx
      · exact hivtB x hx
      · rcases List.mem_append.mp hx with hx | hx
        · exact he1.2.1 x hx
        · exact he2.2.1 x hx
  unfold symDecrypt
  rw [decode_encode _ htampB]
  rw [show (i0 ^^^ 1) :: (ivt ++
      (C.enc key.keyBytes (xorBytes (i0 :: ivt) (List.replicate 16 65)) ++
       C.enc key.keyBytes (xorBytes (C.enc key.keyBytes
         (xorBytes (i0 :: ivt) (List.replicate 16 65)))
         (List.replicate 16 16)))) =
      ((i0 ^^^ 1) :: ivt) ++
      (C.enc key.keyBytes (xorBytes (i0 :: ivt) (List.replicate 16 65)) ++
       C.enc key.keyBytes (xorBytes (C.enc key.keyBytes
         (xorBytes (i0 :: ivt) (List.replicate 16 65)))
         (List.replicate 16 16))) from by simp]
  have hiv2len : ((i0 ^^^ 1) :: ivt).length = 16 := by simpa using hiv
  rw [List.take_left' hiv2len, List.drop_left' hiv2len]
  have hkeyEq : (importSymKey (exportSymKey key)).keyBytes = key.keyBytes := by
    unfold importSymKey exportSymKey
    exact decode_encode _ hkey
  rw [hkeyEq]
  unfold subtleCbcDecrypt
  rw [if_pos (by rw [List.length_append, he1.1, he2.1])]
  rw [toBlocks_cons16 _ _ he1.1, toBlocks_single _ he2.1]
  simp only [cbcDec, List.flatten_cons, List.flatten_nil, List.append_nil]
  rw [he1.2.2, he2.2.2]
  rw [xorBytes_cancel _ _ (by rw [he1.1]; simp)]
  rw [show List.replicate 16 (65 : Nat) = 65 :: List.replicate 15 65 from rfl]
  rw [xorBytes_cons, xorBytes_cons, xor_flip_head,
    xorBytes_cancel ivt _ (by simp [hivt])]
  have hunpad : pkcs7Unpad ((64 :: List.replicate 15 65) ++
      List.replicate 16 16) = Except.ok (64 :: List.replicate 15 65) := by
    have hp : pkcs7Pad (64 :: List.replicate 15 65) =
        (64 :: List.replicate 15 65) ++ List.replicate 16 16 := by
      unfold pkcs7Pad; simp
    rw [← hp, pkcs7_roundtrip]
  rw [hunpad]
  show Except.ok (utf8Decode (64 :: List.replicate 15 65)) = _
  rw [utf8Decode_ascii _ (fun b hb => by
    rcases List.mem_cons.mp hb with h | h
    · rw [h]; decide
    · rw [List.eq_of_mem_replicate h]; decide)]

/-- C6 counterexample: flipping one byte of a concrete symmetric ciphertext
(the first IV byte of its decoded buffer) makes symDecrypt succeed and
return a plaintext different from the original, instead of failing with a
DecryptionError: AES-CBC provides no tamper detection. -/
theorem C6_tamper_cex :
    symDecrypt idCipher (exportSymKey ⟨List.replicate 32 0⟩)
      (arrayBufferToBase64 (flipFirstByte (base64ToArrayBuffer
        (symEncrypt idCipher ⟨List.replicate 32 0⟩ (List.replicate 16 0)
          (List.replicate 16 65))))) =
      Except.ok (64 :: List.replicate 15 65) ∧
    64 :: List.replicate 15 65 ≠ List.replicate 16 65 := by
  constructor
  · exact sym_iv_flip idCipher idCipher_good ⟨List.replicate 32 0⟩
      (List.replicate 16 0)
      (fun b hb => by rw [List.eq_of_mem_replicate hb]; decide)
      (by simp)
      (fun b hb => by rw [List.eq_of_mem_replicate hb]; decide)
  · decide

/-- C6 amended: tamper detection fails for the symmetric transport: for
every block cipher core, key and 16-byte IV, flipping the first byte of the
decoded ciphertext buffer (an IV byte) of the encryption of the
16-character plaintext of code 65 yields a successful decryption whose
plaintext differs from the original. A byte flip may also produce a padding
failure, but CBC decryption can return a corrupted plaintext while
reporting success, so the claimed guarantee does not hold. (The asymmetric
transport's tamper rejection rests on RSA-OAEP decoding, which is abstract
in this model.) -/
theorem C6_sym_tamper_amended (C : BlockCipher) (hC : GoodCipher C)
    (key : CryptoKey) (iv : List Nat) (hkey : Bytes key.keyBytes)
    (hiv : iv.length = 16) (hivB : Bytes iv) :
    symDecrypt C (exportSymKey key)
      (arrayBufferToBase64 (flipFirstByte (base64ToArrayBuffer
        (symEncrypt C key iv (List.replicate 16 65))))) =
      Except.ok (64 :: List.replicate 15 65) ∧
    Except.ok (64 :: List.replicate 15 65) ≠
      (Except.ok (List.replicate 16 65) : Except CryptoError (List Nat)) :=
  ⟨sym_iv_flip C hC key iv hkey hiv hivB, by
    intro h
    rw [Except.ok.injEq] at h
    exact absurd h (by decide)⟩

/-- Witness for C6 amended at a concrete cipher core, key and IV. -/
theorem C6_sym_tamper_amended_witness :
    symDecrypt idCipher (exportSymKey ⟨List.replicate 32 1⟩)
      (arrayBufferToBase64 (flipFirstByte (base64ToArrayBuffer
        (symEncrypt idCipher ⟨List.replicate 32 1⟩ (List.replicate 16 2)
          (List.replicate 16 65))))) =
      Except.ok (64 :: List.replicate 15 65) :=
  (C6_sym_tamper_amended idCipher idCipher_good ⟨List.replicate 32 1⟩
    (List.replicate 16 2)
    (fun b hb => by rw [List.eq_of_mem_replicate hb]; decide)
    (by simp)
    (fun b hb => by rw [List.eq_of_mem_replicate hb]; decide)).1

/-- C8: importing an export is equivalent to the original key for all
supported operations: the key handles themselves coincide, the reimported
public key encrypts identically, the reimported private key decrypts
identically, and the reimported symmetric key encrypts and decrypts
identically. -/
theorem C8_import_export (S : OaepScheme) (C : BlockCipher)
    (pub prv sym : CryptoKey) (hpub : Bytes pub.keyBytes)
    (hprv : Bytes prv.keyBytes) (hsym : Bytes sym.keyBytes) :
    importPubKey (exportPubKey pub) = pub ∧
    (exportPrvKey (some prv)).map importPrvKey = some prv ∧
    importSymKey (exportSymKey sym) = sym ∧
    (∀ msg, subtleRsaEncrypt S (importPubKey (exportPubKey pub)) msg =
      subtleRsaEncrypt S pub msg) ∧
    (∀ ct, rsaDecrypt S ct (importPrvKey (arrayBufferToBase64 prv.keyBytes)) =
      rsaDecrypt S ct prv) ∧
    (∀ iv data, symEncrypt C (importSymKey (exportSymKey sym)) iv data =
      symEncrypt C sym iv data) ∧
    (∀ ct, symDecrypt C (exportSymKey (importSymKey (exportSymKey sym))) ct =
      symDecrypt C (exportSymKey sym) ct) := by
  have hpubEq : importPubKey (exportPubKey pub) = pub := by
    unfold importPubKey exportPubKey
    rw [decode_encode _ hpub]
  have hprvEq : importPrvKey (arrayBufferToBase64 prv.keyBytes) = prv := by
    unfold importPrvKey
    rw [decode_encode _ hprv]
  have hsymEq : importSymKey (exportSymKey sym) = sym := by
    unfold importSymKey exportSymKey
    rw [decode_encode _ hsym]
  refine ⟨hpubEq, ?_, hsymEq, ?_, ?_, ?_, ?_⟩
  · show some (importPrvKey (arrayBufferToBase64 prv.keyBytes)) = some prv
    rw [hprvEq]
  · intro msg; rw [hpubEq]
  · intro ct; rw [hprvEq]
  · intro iv data; rw [hsymEq]
  · intro ct; rw [hsymEq]

/-- Witness for C8 at concrete keys: the reimported symmetric key is the
original key. -/
theorem C8_import_export_witness :
    importSymKey (exportSymKey ⟨[9, 200]⟩) = ⟨[9, 200]⟩ :=
  (C8_import_export oaepTrivial idCipher ⟨[1]⟩ ⟨[2]⟩ ⟨[9, 200]⟩
    (by decide) (by decide) (by decide)).2.2.1

/-- C10: the asymmetric transport treats its plaintext argument as base64
bytes, not text: rsaEncrypt base64-decodes its input before encrypting and
rsaDecrypt base64-encodes the decrypted bytes, so decrypt of encrypt
returns the base64 re-encoding of the bytes decoded from the input - equal
to the input exactly when the input is canonical base64 - while symEncrypt
instead interprets its input as UTF-8 text. -/
theorem C10_rsa_base64_semantics (S : OaepScheme) (pub prv : CryptoKey)
    (p : String) (hpub : Bytes pub.keyBytes)
    (hinv : ∀ m, S.dec prv.keyBytes (S.enc pub.keyBytes m) = Except.ok m)
    (hencB : Bytes (S.enc pub.keyBytes (base64ToArrayBuffer p)))
    (hlen : (base64ToArrayBuffer p).length ≤ 190) :
    (∃ ct, rsaEncrypt S p (exportPubKey pub) = Except.ok ct ∧
      rsaDecrypt S ct prv =
        Except.ok (arrayBufferToBase64 (base64ToArrayBuffer p))) ∧
    (p = arrayBufferToBase64 (base64ToArrayBuffer p) →
      ∃ ct, rsaEncrypt S p (exportPubKey pub) = Except.ok ct ∧
        rsaDecrypt S ct prv = Except.ok p) ∧
    (∀ (Cb : BlockCipher) (key : CryptoKey) (iv data : List Nat),
      symEncrypt Cb key iv data =
        arrayBufferToBase64
          (iv ++ subtleCbcEncrypt Cb key.keyBytes iv (utf8Encode data))) := by
  have hkEq : (importPubKey (exportPubKey pub)).keyBytes = pub.keyBytes := by
    unfold importPubKey exportPubKey
    exact decode_encode _ hpub
  have henc : rsaEncrypt S p (exportPubKey pub) =
      Except.ok (arrayBufferToBase64
        (S.enc pub.keyBytes (base64ToArrayBuffer p))) := by
    unfold rsaEncrypt subtleRsaEncrypt
    rw [if_neg (by simp only [rsaMaxLen, not_lt]; omega), hkEq]
    rfl
  have hdec : rsaDecrypt S (arrayBufferToBase64
      (S.enc pub.keyBytes (base64ToArrayBuffer p))) prv =
      Except.ok (arrayBufferToBase64 (base64ToArrayBuffer p)) := by
    unfold rsaDecrypt
    rw [decode_encode _ hencB, hinv]
    rfl
  refine ⟨⟨_, henc, hdec⟩, ?_, ?_⟩
  · intro hcanon
    exact ⟨_, henc, by rw [hdec, ← hcanon]⟩
  · intro Cb key iv data
    rfl

/-- Witness for C10: a canonical base64 input round-trips through the
asymmetric transport unchanged. -/
theorem C10_rsa_base64_semantics_witness :
    ∃ ct, rsaEncrypt oaepTrivial "AAEC" (exportPubKey ⟨[]⟩) = Except.ok ct ∧
      rsaDecrypt oaepTrivial ct ⟨[]⟩ = Except.ok "AAEC" :=
  (C10_rsa_base64_semantics oaepTrivial ⟨[]⟩ ⟨[]⟩ "AAEC"
    (by decide) (fun _ => rfl) (by decide) (by decide)).2.1 (by decide)

end Decent
